import Mathlib

/-!
# Verification of the RAG pipeline core (tutor-virtual backend)

Shallow embedding of the retrieval-augmented-generation core of the
repository: the chunker, the vector-store query layer, the conversation
history trimmer, the context assembler, the orchestrator's prompt-size
safety truncation, the document-processing chunk-insertion loop
(`src/services/ragService.js`) and the in-memory embedding cache
(`embeddingCacheService`).

JavaScript strings are modelled as `List Char`/`String`; JavaScript
numbers used as indices are modelled as `Int` (they can go negative in
the chunking loop) with explicit clamping mirroring `String.prototype.slice`
and `String.prototype.lastIndexOf`.  The `Math.ceil(length / 4)` token
estimate is `(length + 3) / 4` on `Nat`.
-/

namespace Rag

/-- Characters treated as whitespace by `trim` (the ASCII whitespace
actually occurring in the repository's data paths). -/
def isWsChar (c : Char) : Bool :=
  c = ' ' || c = '\n' || c = '\t' || c = '\r'

/-- Model of `String.prototype.trim`: drop whitespace from both ends. -/
def jsTrim (l : List Char) : List Char :=
  ((l.dropWhile isWsChar).reverse.dropWhile isWsChar).reverse

/-- `estimateTokenCount` (ragService.js line 28): `Math.ceil(text.length / 4)`. -/
def estTok (l : List Char) : Nat :=
  (l.length + 3) / 4

/-- `estimateTokenCount` on `String` payloads. -/
def estTokS (s : String) : Nat :=
  (s.length + 3) / 4

/-- Model of `String.prototype.slice(start, end)` with JavaScript's
negative-index and clamping semantics. -/
def jsSlice (l : List Char) (s e : Int) : List Char :=
  let len : Int := l.length
  let s' : Int := if s < 0 then max (len + s) 0 else min s len
  let e' : Int := if e < 0 then max (len + e) 0 else min e len
  if s' < e' then (l.drop s'.toNat).take (e' - s').toNat else []

/-- Model of `String.prototype.lastIndexOf(c, pos)` for a single-character
search string: the greatest index `i ≤ pos` whose character is `c`,
or `-1` when there is none. -/
def lastIndexOfCharFrom (l : List Char) (c : Char) (pos : Int) : Int :=
  l.enum.foldl
    (fun acc p => if p.2 = c ∧ (p.1 : Int) ≤ pos then (p.1 : Int) else acc) (-1)

/-- A chunk produced by `chunkText`: the sliced text plus its token estimate. -/
structure TChunk where
  content : List Char
  tokenCount : Nat
deriving DecidableEq, Repr

/-- The end-of-window computation of one `chunkText` loop iteration
(ragService.js lines 88–99): the naive cut `start + maxChars`, snapped to
the last sentence terminator or newline when that break point lies past
50% of the window and the naive cut is not already past the end of the
text. -/
def chunkEnd (text : List Char) (maxTokens : Nat) (start : Int) : Int :=
  let end0 := start + 4 * (maxTokens : Int)
  if end0 < (text.length : Int) then
    let lastSentence := lastIndexOfCharFrom text '.' end0
    let lastNewline := lastIndexOfCharFrom text '\n' end0
    let breakPoint := max lastSentence lastNewline
    -- `breakPoint > start + maxChars * 0.5`; `maxChars * 0.5` is the exact
    -- integer `2 * maxTokens` since `maxChars = 4 * maxTokens`.
    if breakPoint > start + 2 * (maxTokens : Int) then breakPoint + 1
    else end0
  else end0

/-- The loop of `chunkText` (ragService.js lines 84–110), fuelled.
State is the JavaScript variable `start` (an `Int`: with large overlaps it
can become negative) and the accumulated chunk list (reversed).  `none`
means the fuel ran out before `start >= text.length` — the JavaScript
loop would still be running. -/
def chunkTextAux (text : List Char) (maxTokens overlap : Nat) :
    Nat → Int → List TChunk → Option (List TChunk)
  | fuel, start, acc =>
    if start < (text.length : Int) then
      match fuel with
      | 0 => none
      | fuel + 1 =>
        let chunk := jsTrim (jsSlice text start (chunkEnd text maxTokens start))
        let acc' := if chunk.length > 0 then ⟨chunk, estTok chunk⟩ :: acc else acc
        chunkTextAux text maxTokens overlap fuel
          (chunkEnd text maxTokens start - 4 * (overlap : Int)) acc'
    else some acc.reverse

/-- `chunkText(text, maxTokens = 800, overlap = 100)` (ragService.js
lines 76–113), fuelled: `some chunks` when the `while` loop finishes
within `fuel` iterations, `none` otherwise. -/
def chunkTextFuel (fuel : Nat) (text : List Char) (maxTokens overlap : Nat) :
    Option (List TChunk) :=
  if text.length ≤ 4 * maxTokens then some [⟨text, estTok text⟩]
  else chunkTextAux text maxTokens overlap fuel 0 []

/-! ## Chunker lemmas -/

theorem lastIndexOfCharFrom_bounds (l : List Char) (c : Char) (pos : Int) :
    -1 ≤ lastIndexOfCharFrom l c pos ∧
      (lastIndexOfCharFrom l c pos ≤ pos ∨ lastIndexOfCharFrom l c pos = -1) := by
  unfold lastIndexOfCharFrom
  generalize l.enum = ps
  suffices h : ∀ (ps : List (Nat × Char)) (a : Int), -1 ≤ a → (a ≤ pos ∨ a = -1) →
      -1 ≤ ps.foldl (fun acc p =>
          if p.2 = c ∧ (p.1 : Int) ≤ pos then (p.1 : Int) else acc) a ∧
        (ps.foldl (fun acc p =>
          if p.2 = c ∧ (p.1 : Int) ≤ pos then (p.1 : Int) else acc) a ≤ pos ∨
          ps.foldl (fun acc p =>
          if p.2 = c ∧ (p.1 : Int) ≤ pos then (p.1 : Int) else acc) a = -1) by
    exact h ps (-1) le_rfl (Or.inr rfl)
  intro ps
  induction ps with
  | nil => intro a h1 h2; exact ⟨h1, h2⟩
  | cons p ps ih =>
    intro a h1 h2
    simp only [List.foldl_cons]
    by_cases hc : p.2 = c ∧ (p.1 : Int) ≤ pos
    · rw [if_pos hc]
      exact ih _ (by omega) (Or.inl hc.2)
    · rw [if_neg hc]
      exact ih _ h1 h2

theorem chunkEnd_lower (text : List Char) (m : Nat) (start : Int) (hm : 1 ≤ m) :
    start + 2 * (m : Int) + 2 ≤ chunkEnd text m start := by
  unfold chunkEnd
  dsimp only
  split
  · split
    · omega
    · omega
  · omega

theorem chunkEnd_upper (text : List Char) (m : Nat) (start : Int) :
    chunkEnd text m start ≤ max (start + 4 * (m : Int) + 1) 0 := by
  unfold chunkEnd
  dsimp only
  split
  · split
    case isTrue h =>
      have h1 := lastIndexOfCharFrom_bounds text '.' (start + 4 * (m : Int))
      have h2 := lastIndexOfCharFrom_bounds text '\n' (start + 4 * (m : Int))
      rcases h1.2 with h1' | h1' <;> rcases h2.2 with h2' | h2' <;> omega
    · omega
  · omega

theorem chunkEnd_nonneg (text : List Char) (m : Nat) (start : Int) (h : 0 ≤ start) :
    0 ≤ chunkEnd text m start := by
  unfold chunkEnd
  dsimp only
  split
  · split
    case isTrue hbp =>
      have h1 := lastIndexOfCharFrom_bounds text '.' (start + 4 * (m : Int))
      have h2 := lastIndexOfCharFrom_bounds text '\n' (start + 4 * (m : Int))
      omega
    · omega
  · omega

theorem chunkEnd_eq_or_nonneg (text : List Char) (m : Nat) (start : Int) :
    chunkEnd text m start = start + 4 * (m : Int) ∨ 0 ≤ chunkEnd text m start := by
  unfold chunkEnd
  dsimp only
  split
  · split
    case isTrue h =>
      have h1 := lastIndexOfCharFrom_bounds text '.' (start + 4 * (m : Int))
      have h2 := lastIndexOfCharFrom_bounds text '\n' (start + 4 * (m : Int))
      right; omega
    · left; rfl
  · left; rfl

theorem jsSlice_length (l : List Char) (s e : Int) :
    (jsSlice l s e).length =
      (((if e < 0 then max ((l.length : Int) + e) 0 else min e l.length) -
        (if s < 0 then max ((l.length : Int) + s) 0 else min s l.length))).toNat := by
  unfold jsSlice
  dsimp only
  split_ifs <;>
    simp only [List.length_take, List.length_drop, List.length_nil] <;> omega

theorem jsTrim_length_le (l : List Char) : (jsTrim l).length ≤ l.length := by
  unfold jsTrim
  calc ((l.dropWhile isWsChar).reverse.dropWhile isWsChar).reverse.length
      = ((l.dropWhile isWsChar).reverse.dropWhile isWsChar).length := by
        rw [List.length_reverse]
    _ ≤ (l.dropWhile isWsChar).reverse.length :=
        (List.dropWhile_suffix _).length_le
    _ = (l.dropWhile isWsChar).length := by rw [List.length_reverse]
    _ ≤ l.length := (List.dropWhile_suffix _).length_le

/-- Any chunk sliced off by one loop iteration is at most one character
longer than the character window `maxChars = 4 * maxTokens` (the
sentence-boundary snap can land one character past the naive cut because
`lastIndexOf(".", end)` may return `end` itself). -/
theorem emitted_length_le (text : List Char) (m : Nat) (start : Int)
    (hlen : 4 * m < text.length) :
    (jsSlice text start (chunkEnd text m start)).length ≤ 4 * m + 1 := by
  have hup := chunkEnd_upper text m start
  have hnn : 0 ≤ start → 0 ≤ chunkEnd text m start := chunkEnd_nonneg text m start
  have hcases := chunkEnd_eq_or_nonneg text m start
  rw [jsSlice_length]
  rcases le_or_lt 0 start with hs | hs
  · have := hnn hs
    split_ifs <;> omega
  · split_ifs <;> omega

/-- Every chunk the loop pushes satisfies the per-chunk invariant:
its token count is the `chars/4` estimate of its own content and its
content fits in the window plus one character. -/
theorem chunkTextAux_invariant (text : List Char) (m o : Nat)
    (hlen : 4 * m < text.length) :
    ∀ (fuel : Nat) (start : Int) (acc cs : List TChunk),
      (∀ c ∈ acc, c.tokenCount = estTok c.content ∧ c.content.length ≤ 4 * m + 1) →
      chunkTextAux text m o fuel start acc = some cs →
      ∀ c ∈ cs, c.tokenCount = estTok c.content ∧ c.content.length ≤ 4 * m + 1 := by
  intro fuel
  induction fuel with
  | zero =>
    intro start acc cs hacc heq
    rw [chunkTextAux] at heq
    split at heq
    · exact absurd heq (by simp)
    · simp only [Option.some.injEq] at heq
      subst heq
      intro c hc
      exact hacc c (List.mem_reverse.mp hc)
  | succ f ih =>
    intro start acc cs hacc heq
    rw [chunkTextAux] at heq
    split at heq
    case isTrue hlt =>
      refine ih _ _ _ ?_ heq
      intro c hc
      split at hc
      case isTrue hpos =>
        rcases List.mem_cons.mp hc with rfl | hmem
        · constructor
          · rfl
          · exact le_trans (jsTrim_length_le _) (emitted_length_le text m start hlen)
        · exact hacc c hmem
      case isFalse hpos => exact hacc c hc
    case isFalse hge =>
      simp only [Option.some.injEq] at heq
      subst heq
      intro c hc
      exact hacc c (List.mem_reverse.mp hc)

/-- With overlap at most half the window (`overlapChars ≤ maxChars / 2`)
every iteration advances `start` by at least one, so `text.length`
iterations of fuel always suffice. -/
theorem chunkTextAux_isSome (text : List Char) (m o : Nat)
    (hm : 1 ≤ m) (ho : 2 * o ≤ m) :
    ∀ (fuel : Nat) (start : Int) (acc : List TChunk),
      (text.length : Int) ≤ start + fuel →
      (chunkTextAux text m o fuel start acc).isSome = true := by
  intro fuel
  induction fuel with
  | zero =>
    intro start acc h
    rw [chunkTextAux]
    split
    case isTrue hlt => omega
    case isFalse hge => simp
  | succ f ih =>
    intro start acc h
    rw [chunkTextAux]
    split
    case isTrue hlt =>
      apply ih
      have := chunkEnd_lower text m start hm
      omega
    case isFalse hge => simp

/-! ## Claim C2 — chunker termination -/

/-- Helper for the C2 counterexample: with `maxTokens = 3`, `overlap = 2`
(`overlapChars = 8 < 12 = maxChars`) on `"aaaaaaaa.bbbbbb"`, the loop state
`start = 1` reproduces itself forever: the window `[1, 13)` snaps back to
the sentence terminator at index 8, giving `end = 9` and
`start' = 9 - 8 = 1` again. -/
theorem c2loop_fixed_point (fuel : Nat) :
    ∀ acc : List TChunk,
      chunkTextAux ("aaaaaaaa.bbbbbb".data) 3 2 fuel 1 acc = none := by
  induction fuel with
  | zero => intro acc; rfl
  | succ f ih =>
    intro acc
    have step : chunkTextAux ("aaaaaaaa.bbbbbb".data) 3 2 (f + 1) 1 acc =
        chunkTextAux ("aaaaaaaa.bbbbbb".data) 3 2 f 1
          (⟨"aaaaaaa.".data, 2⟩ :: acc) := rfl
    rw [step]
    exact ih _

/-- C2, counterexample: `overlapChars < maxChars` does **not** make
`chunkText` terminate.  With `maxTokens = 3`, `overlap = 2`
(`overlapChars = 8 < 12 = maxChars`) the loop on `"aaaaaaaa.bbbbbb"` never
reaches `start >= text.length`, whatever the fuel: the claim as stated is
false on the code. -/
theorem c2_counterexample :
    4 * 2 < 4 * 3 ∧
      ¬ ∃ fuel : Nat,
        (chunkTextFuel fuel ("aaaaaaaa.bbbbbb".data) 3 2).isSome = true := by
  refine ⟨by norm_num, ?_⟩
  rintro ⟨fuel, hf⟩
  have hnone : chunkTextFuel fuel ("aaaaaaaa.bbbbbb".data) 3 2 = none := by
    cases fuel with
    | zero => rfl
    | succ f =>
      have step : chunkTextFuel (f + 1) ("aaaaaaaa.bbbbbb".data) 3 2 =
          chunkTextAux ("aaaaaaaa.bbbbbb".data) 3 2 f 1
            [⟨"aaaaaaaa.".data, 3⟩] := rfl
      rw [step]
      exact c2loop_fixed_point f _
  rw [hnone] at hf
  simp at hf

/-- C2, amended: `chunkText` terminates for every configuration whose
overlap is at most half the window (`overlapChars ≤ maxChars / 2`, i.e.
`2 * overlap ≤ maxTokens`, which covers the production configuration
`maxTokens = 800`, `overlap = 100`): `text.length` iterations of fuel
always suffice. -/
theorem c2_termination_amended (text : List Char) (m o : Nat)
    (hm : 1 ≤ m) (ho : 2 * o ≤ m) :
    (chunkTextFuel text.length text m o).isSome = true := by
  unfold chunkTextFuel
  split
  · rfl
  · exact chunkTextAux_isSome text m o hm ho text.length 0 [] (by omega)

/-- C2 witness: the amended termination theorem applied to the production
configuration on a concrete text that exercises the loop. -/
theorem c2_witness :
    1 ≤ 800 ∧ 2 * 100 ≤ 800 ∧
      (chunkTextFuel ("aaaa.bbbb".data).length ("aaaa.bbbb".data) 800 100).isSome
        = true :=
  ⟨by norm_num, by norm_num,
    c2_termination_amended ("aaaa.bbbb".data) 800 100 (by norm_num) (by norm_num)⟩

/-! ## Claim C5 — single-chunk short-text path -/

/-- C5, counterexample: for text shorter than `maxTokens * 4` characters
the single returned chunk is the **raw** input, not the trimmed input
(the short path at ragService.js lines 80–82 does not call `trim`):
on `" a "` with `maxTokens = 1` the chunk content is `" a "`, which
differs from the trimmed input `"a"`. -/
theorem c5_counterexample :
    (" a ".data).length < 4 * 1 ∧
      chunkTextFuel 0 (" a ".data) 1 0 = some [⟨" a ".data, 1⟩] ∧
      " a ".data ≠ jsTrim (" a ".data) := by
  decide

/-- C5, amended: for every input text shorter than `maxTokens * 4`
characters, `chunkText` returns exactly one chunk whose content is the
input text itself (untrimmed), with its `chars/4` token estimate. -/
theorem c5_single_chunk_amended (text : List Char) (m o fuel : Nat)
    (h : text.length < 4 * m) :
    chunkTextFuel fuel text m o = some [⟨text, estTok text⟩] := by
  unfold chunkTextFuel
  rw [if_pos (le_of_lt h)]

/-- C5 witness: the amended single-chunk theorem at a concrete input. -/
theorem c5_witness :
    (" a ".data).length < 4 * 1 ∧
      chunkTextFuel 3 (" a ".data) 1 0 = some [⟨" a ".data, estTok (" a ".data)⟩] :=
  ⟨by decide, c5_single_chunk_amended (" a ".data) 1 0 3 (by decide)⟩

/-! ## Claim C10 — per-chunk token-count bound -/

/-- C10, counterexample: a chunk's token count can exceed `maxTokens`.
With `maxTokens = 1`, `overlap = 0` (so `overlap < maxTokens`) on
`"aaaa.bbbb"`, the sentence snap sets `end = lastIndexOf(".", 4) + 1 = 5`,
one character past the window, so the first chunk is `"aaaa."` with
`tokenCount = 2 > 1 = maxTokens`. -/
theorem c10_counterexample :
    0 < 1 ∧
      chunkTextFuel 2 ("aaaa.bbbb".data) 1 0 =
        some [⟨"aaaa.".data, 2⟩, ⟨"bbbb".data, 1⟩] ∧
      ¬ (2 : Nat) ≤ 1 := by
  decide

/-- C10, amended: every chunk emitted by `chunkText` has
`tokenCount = ceil(content.length / 4)`, content at most
`maxTokens * 4 + 1` characters (the sentence snap can overshoot the
window by exactly one character), and hence `tokenCount ≤ maxTokens + 1`
— not `maxTokens` as claimed. -/
theorem c10_token_counts_amended (text : List Char) (m o fuel : Nat)
    (cs : List TChunk) (h : chunkTextFuel fuel text m o = some cs) :
    ∀ c ∈ cs, c.tokenCount = estTok c.content ∧
      c.content.length ≤ 4 * m + 1 ∧ c.tokenCount ≤ m + 1 := by
  unfold chunkTextFuel at h
  split at h
  case isTrue hshort =>
    simp only [Option.some.injEq] at h
    subst h
    intro c hc
    simp only [List.mem_singleton] at hc
    subst hc
    refine ⟨rfl, by simpa using Nat.le_succ_of_le hshort, ?_⟩
    show estTok text ≤ m + 1
    unfold estTok
    omega
  case isFalse hlong =>
    have hlen : 4 * m < text.length := by omega
    have hall := chunkTextAux_invariant text m o hlen fuel 0 [] cs
      (by intro c hc; cases hc) h
    intro c hc
    obtain ⟨h1, h2⟩ := hall c hc
    refine ⟨h1, h2, ?_⟩
    rw [h1]
    unfold estTok
    omega

/-- C10 witness: the amended theorem applied to the concrete overshooting
run, giving the exact `maxTokens + 1` bound for the chunk `"aaaa."`. -/
theorem c10_witness :
    (2 : Nat) = estTok ("aaaa.".data) ∧
      ("aaaa.".data).length ≤ 4 * 1 + 1 ∧ (2 : Nat) ≤ 1 + 1 :=
  c10_token_counts_amended ("aaaa.bbbb".data) 1 0 2
    [⟨"aaaa.".data, 2⟩, ⟨"bbbb".data, 1⟩] (by decide)
    ⟨"aaaa.".data, 2⟩ (by decide)

/-! ## Vector-store query layer (`findSimilarChunks`, ragService.js 403–487)

The raw SQL query joins `document_chunks` with its content and course,
filters on course id, `isProcessed`, non-null embeddings and
`similarity > SIMILARITY_THRESHOLD`, orders by cosine distance
(ascending distance = descending similarity) and applies `LIMIT`.
A joined row is modelled with its course id, processing flag,
embedding-presence flag and the similarity `1 - (embeddings <=> query)`
that the database computes for the given query vector (the cosine
arithmetic itself is the database's, out of scope here); the query is
filter → sort-by-descending-similarity → take. -/

structure DbChunk where
  chunkId : Nat
  courseId : Nat
  isProcessed : Bool
  hasEmbedding : Bool
  similarity : ℚ
deriving DecidableEq, Repr

/-- `ORDER BY dc.embeddings <=> query` — ascending cosine distance, i.e.
descending similarity. -/
def simDesc (a b : DbChunk) : Prop :=
  b.similarity ≤ a.similarity

instance : DecidableRel simDesc := fun a b =>
  inferInstanceAs (Decidable (b.similarity ≤ a.similarity))

instance : IsTotal DbChunk simDesc :=
  ⟨fun a b => le_total b.similarity a.similarity⟩

instance : IsTrans DbChunk simDesc :=
  ⟨fun _ _ _ h1 h2 => le_trans h2 h1⟩

/-- The row predicate of the SQL `WHERE` clause (ragService.js 435–438). -/
def queryFilter (courseId : Nat) (threshold : ℚ) (r : DbChunk) : Bool :=
  r.courseId == courseId && r.isProcessed && r.hasEmbedding &&
    decide (threshold < r.similarity)

/-- The result-set semantics of the similarity query (ragService.js
419–441): `WHERE` filter, `ORDER BY` descending similarity, `LIMIT`. -/
def queryChunks (rows : List DbChunk) (courseId : Nat) (threshold : ℚ)
    (lim : Nat) : List DbChunk :=
  (List.insertionSort simDesc (rows.filter (queryFilter courseId threshold))).take lim

/-- `findSimilarChunks` control flow: the whole body is wrapped in
`try/catch`, so a failure of the query-embedding step or of the database
call returns `[]` instead of propagating (ragService.js 483–486). -/
def findSimilarChunks (embedRes : Except String (List ℚ))
    (dbRes : List ℚ → Except String (List DbChunk))
    (courseId : Nat) (threshold : ℚ) (lim : Nat) : List DbChunk :=
  match embedRes with
  | .error _ => []
  | .ok v =>
    match dbRes v with
    | .error _ => []
    | .ok rows => queryChunks rows courseId threshold lim

/-- The spec scenario's candidate set: one course (id 7) with chunk
similarities 0.68, 0.34, 0.12, 0.03. -/
def scenarioRows : List DbChunk :=
  [⟨1, 7, true, true, mkRat 17 25⟩, ⟨2, 7, true, true, mkRat 17 50⟩,
   ⟨3, 7, true, true, mkRat 3 25⟩, ⟨4, 7, true, true, mkRat 3 100⟩]

/-! ## Claim C1 — similarity query semantics -/

/-- C1, counterexample: the result sequence is **not** strictly
descending in general: two chunks at the same cosine distance from the
query (e.g. duplicate embeddings) both pass the filter and are returned
at equal similarity. -/
theorem c1_counterexample :
    queryChunks [⟨1, 7, true, true, mkRat 1 2⟩, ⟨2, 7, true, true, mkRat 1 2⟩]
        7 (mkRat 1 20) 5 =
        [⟨1, 7, true, true, mkRat 1 2⟩, ⟨2, 7, true, true, mkRat 1 2⟩] ∧
      ¬ ((⟨2, 7, true, true, mkRat 1 2⟩ : DbChunk).similarity <
          (⟨1, 7, true, true, mkRat 1 2⟩ : DbChunk).similarity) := by
  constructor
  · decide
  · decide

/-- C1, amended: every returned row belongs to the course, is processed,
has an embedding and has similarity **strictly above** the threshold; the
result is sorted by **non-increasing** (not strictly decreasing)
similarity; its length is at most the limit; and on the spec scenario
(threshold 0.05, similarities [0.68, 0.34, 0.12, 0.03]) the query returns
exactly [0.68, 0.34, 0.12] in that order. -/
theorem c1_query_amended :
    (∀ (rows : List DbChunk) (cid : Nat) (t : ℚ) (lim : Nat),
      (∀ r ∈ queryChunks rows cid t lim,
        r.courseId = cid ∧ r.isProcessed = true ∧ r.hasEmbedding = true ∧
          t < r.similarity) ∧
      (queryChunks rows cid t lim).Sorted simDesc ∧
      (queryChunks rows cid t lim).length ≤ lim) ∧
    (queryChunks scenarioRows 7 (mkRat 1 20) 5).map (fun r => r.similarity) =
      [mkRat 17 25, mkRat 17 50, mkRat 3 25] := by
  constructor
  · intro rows cid t lim
    refine ⟨?_, ?_, ?_⟩
    · intro r hr
      have hr' : r ∈ List.insertionSort simDesc
          (rows.filter (queryFilter cid t)) := List.take_subset _ _ hr
      have hr'' : r ∈ rows.filter (queryFilter cid t) :=
        (List.perm_insertionSort simDesc _).subset hr'
      have hp := List.of_mem_filter hr''
      simp only [queryFilter, Bool.and_eq_true, beq_iff_eq,
        decide_eq_true_eq] at hp
      exact ⟨hp.1.1.1, hp.1.1.2, hp.1.2, hp.2⟩
    · exact (List.sorted_insertionSort simDesc _).sublist
        (List.take_sublist _ _)
    · exact List.length_take_le _ _
  · decide

/-- C1 witness: the amended theorem at the scenario input, for the
top-ranked returned row. -/
theorem c1_witness :
    (7 : Nat) = 7 ∧ true = true ∧ true = true ∧ mkRat 1 20 < mkRat 17 25 :=
  ((c1_query_amended.1 scenarioRows 7 (mkRat 1 20) 5).1
    ⟨1, 7, true, true, mkRat 17 25⟩ (by decide))

/-! ## Claim C8 — query failures degrade to an empty result -/

/-- C8: any error during `findSimilarChunks` — embedding failure or
database failure — yields `[]` rather than propagating to the caller
(the `catch` at ragService.js 483–486). -/
theorem c8_error_degrades (courseId : Nat) (t : ℚ) (lim : Nat) :
    (∀ (e : String) (db : List ℚ → Except String (List DbChunk)),
        findSimilarChunks (.error e) db courseId t lim = []) ∧
    (∀ (v : List ℚ) (e : String) (db : List ℚ → Except String (List DbChunk)),
        db v = .error e → findSimilarChunks (.ok v) db courseId t lim = []) := by
  constructor
  · intro e db
    rfl
  · intro v e db h
    simp only [findSimilarChunks, h]

/-! ## Conversation-history trimmer (`getConversationHistory`,
ragService.js 492–531)

The session messages arrive oldest-first; the loop walks them from the
newest (`i = messages.length - 1` downwards), breaks at the first message
whose estimated tokens would push the running total past `maxTokens`, and
`unshift`s accepted messages so the returned list is oldest-first. -/

structure SessionMsg where
  content : String
  isFromUser : Bool
deriving DecidableEq, Repr

structure ChatMsg where
  role : String
  content : String
deriving DecidableEq, Repr

/-- `{ role: isFromUser ? "user" : "assistant", content }`. -/
def toChatMsg (m : SessionMsg) : ChatMsg :=
  ⟨if m.isFromUser then "user" else "assistant", m.content⟩

/-- The newest-first accumulation loop: keep taking messages while the
running token total stays within the budget, stopping (not skipping) at
the first overflow. -/
def takeBudget (maxTokens : Nat) : Nat → List SessionMsg → List SessionMsg
  | _, [] => []
  | acc, m :: rest =>
    if maxTokens < acc + estTokS m.content then []
    else m :: takeBudget maxTokens (acc + estTokS m.content) rest

/-- `getConversationHistory(sessionId, maxTokens = 2000)`: walk the
oldest-first message list newest-first, accumulate token estimates, stop
at the first overflow, return the accepted messages oldest-first in
OpenAI `{role, content}` format. -/
def getConversationHistory (messages : List SessionMsg) (maxTokens : Nat) :
    List ChatMsg :=
  ((takeBudget maxTokens 0 messages.reverse).reverse).map toChatMsg

/-- Total estimated tokens of a message list. -/
def sumTok (l : List SessionMsg) : Nat :=
  (l.map (fun m => estTokS m.content)).sum

/-- The number of (oldest) messages the trimmer drops. -/
def histDrop (messages : List SessionMsg) (maxTokens : Nat) : Nat :=
  messages.length - (takeBudget maxTokens 0 messages.reverse).length

theorem sumTok_reverse (l : List SessionMsg) : sumTok l.reverse = sumTok l := by
  unfold sumTok
  rw [List.map_reverse, List.sum_reverse]

theorem sumTok_drop_le_self (l : List SessionMsg) :
    ∀ j, sumTok (l.drop j) ≤ sumTok l := by
  induction l with
  | nil => intro j; simp
  | cons m rest ih =>
    intro j
    cases j with
    | zero => exact le_rfl
    | succ j =>
      calc sumTok ((m :: rest).drop (j + 1)) = sumTok (rest.drop j) := rfl
        _ ≤ sumTok rest := ih j
        _ ≤ sumTok (m :: rest) := by simp [sumTok]

theorem sumTok_drop_antitone (l : List SessionMsg) (i j : Nat) (h : i ≤ j) :
    sumTok (l.drop j) ≤ sumTok (l.drop i) := by
  have : l.drop j = (l.drop i).drop (j - i) := by
    rw [List.drop_drop]
    congr 1
    omega
  rw [this]
  exact sumTok_drop_le_self (l.drop i) (j - i)

/-- The accumulation loop takes a maximal prefix of the (newest-first)
list whose token total fits in the remaining budget. -/
theorem takeBudget_spec (B : Nat) :
    ∀ (l : List SessionMsg) (acc : Nat), acc ≤ B →
      ∃ n, n ≤ l.length ∧ takeBudget B acc l = l.take n ∧
        acc + sumTok (l.take n) ≤ B ∧
        (n < l.length → B < acc + sumTok (l.take (n + 1))) := by
  intro l
  induction l with
  | nil =>
    intro acc h
    exact ⟨0, by simp, rfl, by simpa [sumTok], by simp⟩
  | cons m rest ih =>
    intro acc h
    by_cases hb : B < acc + estTokS m.content
    · refine ⟨0, by simp, ?_, ?_, ?_⟩
      · simp [takeBudget, hb]
      · simpa [sumTok]
      · intro _
        simpa [sumTok] using hb
    · have hacc : acc + estTokS m.content ≤ B := by omega
      obtain ⟨n, hn, heq, hsum, hmax⟩ := ih (acc + estTokS m.content) hacc
      refine ⟨n + 1, by simpa using hn, ?_, ?_, ?_⟩
      · simp only [takeBudget, if_neg hb, heq, List.take_succ_cons]
      · simp only [List.take_succ_cons, sumTok, List.map_cons, List.sum_cons]
        simp only [sumTok] at hsum
        omega
      · intro hlt
        have := hmax (by simpa using hlt)
        simp only [List.take_succ_cons, sumTok, List.map_cons, List.sum_cons]
        simp only [sumTok] at this
        omega

/-! ## Claim C4 — history trimming -/

/-- C4: `getConversationHistory` returns exactly the most recent
contiguous suffix of the session messages whose cumulative
`ceil(length/4)` token estimate fits in the budget: the result is the
suffix dropping the `histDrop` oldest messages (in oldest-first order, in
`{role, content}` format), its token total is at most the budget, and
every strictly longer suffix exceeds the budget. -/
theorem c4_history_suffix (messages : List SessionMsg) (B : Nat) :
    histDrop messages B ≤ messages.length ∧
      getConversationHistory messages B =
        (messages.drop (histDrop messages B)).map toChatMsg ∧
      sumTok (messages.drop (histDrop messages B)) ≤ B ∧
      (∀ j, j < histDrop messages B → B < sumTok (messages.drop j)) := by
  obtain ⟨n, hn, heq, hsum, hmax⟩ :=
    takeBudget_spec B messages.reverse 0 (Nat.zero_le B)
  rw [List.length_reverse] at hn
  have hdrop : histDrop messages B = messages.length - n := by
    unfold histDrop
    rw [heq, List.length_take, List.length_reverse]
    omega
  have hrev : takeBudget B 0 messages.reverse =
      (messages.drop (messages.length - n)).reverse := by
    rw [heq, List.take_reverse]
  refine ⟨by omega, ?_, ?_, ?_⟩
  · unfold getConversationHistory
    rw [hrev, List.reverse_reverse, hdrop]
  · rw [hdrop]
    rw [List.take_reverse, sumTok_reverse] at hsum
    omega
  · intro j hj
    rw [hdrop] at hj
    have hn' : n < messages.length := by omega
    have hover := hmax (by rw [List.length_reverse]; omega)
    have htake : sumTok (messages.reverse.take (n + 1)) =
        sumTok (messages.drop (messages.length - (n + 1))) := by
      rw [List.take_reverse, sumTok_reverse]
    rw [htake] at hover
    have hmono : sumTok (messages.drop (messages.length - (n + 1))) ≤
        sumTok (messages.drop j) :=
      sumTok_drop_antitone messages j (messages.length - (n + 1)) (by omega)
    omega

/-- C4 witness: three messages of 8 estimated tokens each with a budget
of 16 keep exactly the two most recent ones; the two-message suffix fits,
and the full three-message list exceeds the budget. -/
theorem c4_witness :
    getConversationHistory
        [⟨"aaaaaaaaaaaaaaaaaaaaaaaaaaaaaa", true⟩,
         ⟨"bbbbbbbbbbbbbbbbbbbbbbbbbbbbbb", false⟩,
         ⟨"cccccccccccccccccccccccccccccc", true⟩] 16 =
      [⟨"assistant", "bbbbbbbbbbbbbbbbbbbbbbbbbbbbbb"⟩,
       ⟨"user", "cccccccccccccccccccccccccccccc"⟩] ∧
      16 < sumTok
        [⟨"aaaaaaaaaaaaaaaaaaaaaaaaaaaaaa", true⟩,
         ⟨"bbbbbbbbbbbbbbbbbbbbbbbbbbbbbb", false⟩,
         ⟨"cccccccccccccccccccccccccccccc", true⟩] := by
  have h := c4_history_suffix
    [⟨"aaaaaaaaaaaaaaaaaaaaaaaaaaaaaa", true⟩,
     ⟨"bbbbbbbbbbbbbbbbbbbbbbbbbbbbbb", false⟩,
     ⟨"cccccccccccccccccccccccccccccc", true⟩] 16
  refine ⟨?_, ?_⟩
  · rw [h.2.1]
    decide
  · have := h.2.2.2 0 (by decide)
    simpa using this

/-! ## Document processing chunk-insertion loop (`processDocument`,
ragService.js 352–374)

`for (let i = 0; i < chunks.length; i++)` embeds and inserts chunk `i`
with `chunkIndex = i`; on any per-chunk error the `catch` logs and
continues with the next chunk, so the failed ordinal is simply skipped.
The per-iteration failure outcome (embedding or insert error) is
modelled by an oracle `fails : Nat → Bool` over the loop index. -/

def insertChunksLoop (fails : Nat → Bool) : Nat → List TChunk → List (Nat × TChunk)
  | _, [] => []
  | i, c :: rest =>
    if fails i then insertChunksLoop fails (i + 1) rest
    else (i, c) :: insertChunksLoop fails (i + 1) rest

/-- The chunk rows stored for one document by `processDocument`:
`(chunkIndex, chunk)` pairs for the iterations that did not fail. -/
def processDocumentChunks (chunks : List TChunk) (fails : Nat → Bool) :
    List (Nat × TChunk) :=
  insertChunksLoop fails 0 chunks

/-- The `chunkIndex` ordinals stored for one document, in insertion order. -/
def storedIndexes (chunks : List TChunk) (fails : Nat → Bool) : List Nat :=
  (processDocumentChunks chunks fails).map Prod.fst

theorem insertChunksLoop_sorted (fails : Nat → Bool) :
    ∀ (cs : List TChunk) (i : Nat),
      List.Pairwise (fun a b => a < b)
          ((insertChunksLoop fails i cs).map Prod.fst) ∧
        ∀ x ∈ (insertChunksLoop fails i cs).map Prod.fst, i ≤ x := by
  intro cs
  induction cs with
  | nil => intro i; simp [insertChunksLoop]
  | cons c rest ih =>
    intro i
    rw [insertChunksLoop]
    split
    · exact ⟨(ih (i + 1)).1, fun x hx => le_trans (by omega) ((ih (i + 1)).2 x hx)⟩
    · simp only [List.map_cons, List.pairwise_cons, List.mem_cons]
      refine ⟨⟨fun x hx => ?_, (ih (i + 1)).1⟩, fun x hx => ?_⟩
      · have := (ih (i + 1)).2 x hx
        omega
      · rcases hx with rfl | hx
        · exact le_rfl
        · exact le_trans (by omega) ((ih (i + 1)).2 x hx)

theorem insertChunksLoop_nofail (fails : Nat → Bool) :
    ∀ (cs : List TChunk) (i : Nat),
      (∀ j, i ≤ j → j < i + cs.length → fails j = false) →
      (insertChunksLoop fails i cs).map Prod.fst = List.range' i cs.length := by
  intro cs
  induction cs with
  | nil => intro i _; simp [insertChunksLoop]
  | cons c rest ih =>
    intro i h
    rw [insertChunksLoop]
    have hfi : fails i = false := h i le_rfl (by simp)
    rw [if_neg (by simp [hfi])]
    simp only [List.map_cons, List.length_cons, List.range'_succ]
    congr 1
    exact ih (i + 1) (fun j h1 h2 => h j (by omega) (by simpa [Nat.add_comm,
      Nat.add_assoc, Nat.add_left_comm] using h2))

/-! ## Claim C6 — chunk ordinal contiguity -/

/-- C6, counterexample: when the iteration for chunk 1 fails (embedding
or insert error), `processDocument` stores ordinals `[0, 2]` — strictly
increasing but with a gap, not the contiguous `[0, 1]` the claim
requires. -/
theorem c6_counterexample :
    storedIndexes [⟨"a".data, 1⟩, ⟨"b".data, 1⟩, ⟨"c".data, 1⟩]
        (fun i => i == 1) = [0, 2] ∧
      storedIndexes [⟨"a".data, 1⟩, ⟨"b".data, 1⟩, ⟨"c".data, 1⟩]
          (fun i => i == 1) ≠
        List.range (storedIndexes [⟨"a".data, 1⟩, ⟨"b".data, 1⟩, ⟨"c".data, 1⟩]
          (fun i => i == 1)).length := by
  constructor
  · decide
  · decide

/-- A stored ordinal is exactly a loop index in range whose iteration did
not fail. -/
theorem insertChunksLoop_mem (fails : Nat → Bool) :
    ∀ (cs : List TChunk) (i x : Nat),
      x ∈ (insertChunksLoop fails i cs).map Prod.fst ↔
        (i ≤ x ∧ x < i + cs.length ∧ fails x = false) := by
  intro cs
  induction cs with
  | nil =>
    intro i x
    simp only [insertChunksLoop, List.map_nil, List.not_mem_nil,
      List.length_nil, false_iff]
    omega
  | cons c rest ih =>
    intro i x
    rw [insertChunksLoop]
    split
    next hfi =>
      rw [ih (i + 1) x, List.length_cons]
      constructor
      · rintro ⟨h1, h2, h3⟩
        exact ⟨by omega, by omega, h3⟩
      · rintro ⟨h1, h2, h3⟩
        refine ⟨?_, by omega, h3⟩
        rcases Nat.lt_or_ge i x with h | h
        · omega
        · have hxi : x = i := by omega
          rw [hxi, hfi] at h3
          cases h3
    next hfi =>
      rw [List.map_cons, List.mem_cons, ih (i + 1) x, List.length_cons]
      constructor
      · rintro (rfl | ⟨h1, h2, h3⟩)
        · exact ⟨le_rfl, by omega, Bool.eq_false_iff.mpr hfi⟩
        · exact ⟨by omega, by omega, h3⟩
      · rintro ⟨h1, h2, h3⟩
        by_cases hx : x = i
        · exact Or.inl hx
        · exact Or.inr ⟨by omega, by omega, h3⟩

/-- C6, amended: stored ordinals are always strictly increasing in source
order; they are contiguous starting at 0 (`0, 1, …, n-1`) whenever no
chunk iteration fails; and whenever a failed iteration is followed by a
successful one, the stored ordinals are **not** contiguous from 0 — the
failure leaves a gap.  (A failing trailing run only shortens the
sequence, so contiguity alone does not imply every iteration
succeeded.) -/
theorem c6_ordinals_amended (chunks : List TChunk) (fails : Nat → Bool) :
    List.Pairwise (fun a b => a < b) (storedIndexes chunks fails) ∧
      ((∀ i, i < chunks.length → fails i = false) →
        storedIndexes chunks fails = List.range chunks.length) ∧
      (∀ i j, i < j → j < chunks.length → fails i = true → fails j = false →
        storedIndexes chunks fails ≠
          List.range (storedIndexes chunks fails).length) := by
  refine ⟨?_, ?_, ?_⟩
  · exact (insertChunksLoop_sorted fails chunks 0).1
  · intro h
    unfold storedIndexes processDocumentChunks
    rw [insertChunksLoop_nofail fails chunks 0 (fun j _ hj => h j (by omega)),
      List.range_eq_range']
  · intro i j hij hj hfi hfj heq
    have hjmem : j ∈ storedIndexes chunks fails := by
      unfold storedIndexes processDocumentChunks
      rw [insertChunksLoop_mem fails chunks 0 j]
      exact ⟨Nat.zero_le j, by omega, hfj⟩
    have hjlt : j < (storedIndexes chunks fails).length := by
      rw [heq] at hjmem
      simpa using hjmem
    have himem : i ∈ storedIndexes chunks fails := by
      rw [heq]
      simp only [List.mem_range]
      omega
    have hfi' : fails i = false := by
      unfold storedIndexes processDocumentChunks at himem
      rw [insertChunksLoop_mem fails chunks 0 i] at himem
      exact himem.2.2
    rw [hfi'] at hfi
    cases hfi

/-- C6 witness: with no failures two chunks are stored with the
contiguous ordinals `[0, 1]`, and in the failing run (chunk 1 fails,
chunk 2 succeeds) the stored ordinals are not contiguous from 0. -/
theorem c6_witness :
    storedIndexes [⟨"a".data, 1⟩, ⟨"b".data, 1⟩] (fun _ => false) =
        List.range 2 ∧
      storedIndexes [⟨"a".data, 1⟩, ⟨"b".data, 1⟩, ⟨"c".data, 1⟩]
          (fun i => i == 1) ≠
        List.range (storedIndexes [⟨"a".data, 1⟩, ⟨"b".data, 1⟩, ⟨"c".data, 1⟩]
          (fun i => i == 1)).length :=
  ⟨(c6_ordinals_amended [⟨"a".data, 1⟩, ⟨"b".data, 1⟩] (fun _ => false)).2.1
      (fun _ _ => rfl),
    (c6_ordinals_amended [⟨"a".data, 1⟩, ⟨"b".data, 1⟩, ⟨"c".data, 1⟩]
      (fun i => i == 1)).2.2 1 2 (by norm_num) (by norm_num)
      (by decide) (by decide)⟩

/-! ## Context assembler (ragService.js 931–964)

Retrieved chunks are grouped by document; each document section starts
with a `## Dokumen:` header (not counted against the budget), then chunks
are rendered one by one.  A chunk whose rendered text would push the
running token estimate past `MAX_CONTEXT_TOKENS = 4000` triggers the
truncation marker and ends that document's chunk loop; after each
document the outer loop stops if the running estimate has reached the
budget.  The human-readable relevance percentage
(`(similarity * 100).toFixed(1)`) is carried as a pre-rendered string
field, abstracting the floating-point formatting. -/

structure CaChunk where
  content : String
  relevancePct : String
  idx : Nat
deriving DecidableEq, Repr

structure CaDoc where
  title : String
  chunks : List CaChunk
deriving DecidableEq, Repr

/-- One rendered chunk section (ragService.js 941–943). -/
def renderChunkText (c : CaChunk) : String :=
  "**Bagian " ++ toString c.idx ++ "** (Relevansi: " ++ c.relevancePct ++
    "%)\n" ++ c.content ++ "\n\n"

/-- The truncation marker appended when a chunk no longer fits
(ragService.js 948). -/
def truncationMarker : String :=
  "[Bagian lain dari dokumen tidak ditampilkan untuk menghemat ruang]\n\n"

/-- The inner chunk loop of one document: returns the rendered chunk
text (without the header), the updated running token count, and whether
the truncation marker was emitted. -/
def assembleDoc (budget : Nat) : Nat → List CaChunk → String × Nat × Bool
  | cnt, [] => ("", cnt, false)
  | cnt, c :: rest =>
    if budget < cnt + estTokS (renderChunkText c) then (truncationMarker, cnt, true)
    else
      let r := assembleDoc budget (cnt + estTokS (renderChunkText c)) rest
      (renderChunkText c ++ r.1, r.2.1, r.2.2)

/-- One document's pushed section: header plus chunk content, trimmed
(ragService.js 937–938, 956). -/
def docSection (budget : Nat) (cnt : Nat) (d : CaDoc) : String :=
  ("## Dokumen: " ++ d.title ++ "\n\n" ++ (assembleDoc budget cnt d.chunks).1).trim

/-- The outer document loop: accumulates sections and stops once the
running token count has reached the budget (ragService.js 936–962). -/
def assembleContext (budget : Nat) : Nat → List CaDoc → List String × Nat
  | cnt, [] => ([], cnt)
  | cnt, d :: rest =>
    if budget ≤ (assembleDoc budget cnt d.chunks).2.1 then
      ([docSection budget cnt d], (assembleDoc budget cnt d.chunks).2.1)
    else
      ((docSection budget cnt d) ::
          (assembleContext budget (assembleDoc budget cnt d.chunks).2.1 rest).1,
        (assembleContext budget (assembleDoc budget cnt d.chunks).2.1 rest).2)

theorem assembleDoc_count (budget : Nat) :
    ∀ (cs : List CaChunk) (cnt : Nat), cnt ≤ budget →
      cnt ≤ (assembleDoc budget cnt cs).2.1 ∧
        (assembleDoc budget cnt cs).2.1 ≤ budget := by
  intro cs
  induction cs with
  | nil => intro cnt h; exact ⟨le_rfl, h⟩
  | cons c rest ih =>
    intro cnt h
    rw [assembleDoc]
    split
    · exact ⟨le_rfl, h⟩
    case isFalse hfit =>
      dsimp only
      have := ih (cnt + estTokS (renderChunkText c)) (by omega)
      exact ⟨by omega, this.2⟩

theorem assembleDoc_marker (budget : Nat) :
    ∀ (cs : List CaChunk) (cnt : Nat),
      (assembleDoc budget cnt cs).2.2 = true →
      ∃ p, (assembleDoc budget cnt cs).1 = p ++ truncationMarker := by
  intro cs
  induction cs with
  | nil => intro cnt h; exact absurd h (by simp [assembleDoc])
  | cons c rest ih =>
    intro cnt h
    by_cases hfit : budget < cnt + estTokS (renderChunkText c)
    · refine ⟨"", ?_⟩
      rw [assembleDoc, if_pos hfit]
      exact (String.empty_append _).symm
    · rw [assembleDoc, if_neg hfit] at h ⊢
      dsimp only at h ⊢
      obtain ⟨p, hp⟩ := ih (cnt + estTokS (renderChunkText c)) h
      exact ⟨renderChunkText c ++ p, by rw [hp, String.append_assoc]⟩

theorem assembleContext_le (budget : Nat) :
    ∀ (ds : List CaDoc) (cnt : Nat), cnt ≤ budget →
      (assembleContext budget cnt ds).2 ≤ budget := by
  intro ds
  induction ds with
  | nil => intro cnt h; exact h
  | cons d rest ih =>
    intro cnt h
    rw [assembleContext]
    split
    · exact (assembleDoc_count budget d.chunks cnt h).2
    · exact ih _ (assembleDoc_count budget d.chunks cnt h).2

/-! ## Claim C3 — token-budgeted context assembly -/

/-- C3: the context assembler (i) never lets the running token estimate
of accumulated chunk sections exceed the budget (in particular the total
is within one chunk's worth of the budget), because the budget check is
applied *before* adding each chunk; (ii) whenever a document's chunk loop
is cut short, that document's rendered section ends with the truncation
marker; (iii) after a document that leaves the running count below the
budget, processing moves on to the remaining documents without
backtracking; and (iv) the document loop stops as soon as the running
count has reached the budget. -/
theorem c3_context_assembler :
    (∀ (ds : List CaDoc) (B : Nat), (assembleContext B 0 ds).2 ≤ B) ∧
    (∀ (B cnt : Nat) (cs : List CaChunk), cnt ≤ B →
      (assembleDoc B cnt cs).2.1 ≤ B) ∧
    (∀ (B cnt : Nat) (cs : List CaChunk),
      (assembleDoc B cnt cs).2.2 = true →
      ∃ p, (assembleDoc B cnt cs).1 = p ++ truncationMarker) ∧
    (∀ (B cnt : Nat) (d : CaDoc) (rest : List CaDoc),
      ¬ B ≤ (assembleDoc B cnt d.chunks).2.1 →
      assembleContext B cnt (d :: rest) =
        ((docSection B cnt d) ::
            (assembleContext B (assembleDoc B cnt d.chunks).2.1 rest).1,
          (assembleContext B (assembleDoc B cnt d.chunks).2.1 rest).2)) ∧
    (∀ (B cnt : Nat) (d : CaDoc) (rest : List CaDoc),
      B ≤ (assembleDoc B cnt d.chunks).2.1 →
      assembleContext B cnt (d :: rest) =
        ([docSection B cnt d], (assembleDoc B cnt d.chunks).2.1)) := by
  refine ⟨?_, ?_, ?_, ?_, ?_⟩
  · intro ds B
    exact assembleContext_le B ds 0 (Nat.zero_le B)
  · intro B cnt cs h
    exact (assembleDoc_count B cs cnt h).2
  · intro B cnt cs h
    exact assembleDoc_marker B cs cnt h
  · intro B cnt d rest h
    rw [assembleContext, if_neg h]
  · intro B cnt d rest h
    rw [assembleContext, if_pos h]

/-- C3 witness: with the running count already at the 4000-token budget,
the next chunk is rejected, the count stays at 4000 ≤ 4000, and the doc
section ends with the truncation marker. -/
theorem c3_witness :
    (assembleDoc 4000 4000 [⟨"x", "50.0", 1⟩]).2.1 ≤ 4000 ∧
      ∃ p, (assembleDoc 4000 4000 [⟨"x", "50.0", 1⟩]).1 = p ++ truncationMarker :=
  ⟨c3_context_assembler.2.1 4000 4000 [⟨"x", "50.0", 1⟩] le_rfl,
    c3_context_assembler.2.2.1 4000 4000 [⟨"x", "50.0", 1⟩] (by decide)⟩

/-! ## Orchestrator prompt-size safety truncation (ragService.js
1135–1203)

The messages array is `[system, ...history, user]`.  If the total token
estimate exceeds `MAX_SAFE_TOKENS = 15000`, a target size for the system
prompt is computed as `max(2000, 15000 - estimate(userMessage) - 1000)`
(in tokens; `×4` in characters) and the system prompt is truncated to
that many characters with a notice appended — but only when the system
prompt is actually longer than the target.  The history and the user
message are never modified. -/

/-- The truncation notice (ragService.js 1200). -/
def truncationNotice : String :=
  "\n\n[Konten dipotong untuk menghemat ruang. Masih memiliki akses ke dokumen yang relevan.]"

/-- The messages array (ragService.js 1136–1146). -/
def buildMessages (systemPrompt : String) (history : List ChatMsg)
    (userMessage : String) : List ChatMsg :=
  ⟨"system", systemPrompt⟩ :: history ++ [⟨"user", userMessage⟩]

/-- `messages.reduce((total, msg) => total + estimateTokenCount(msg.content), 0)`. -/
def totalTokenEstimate (msgs : List ChatMsg) : Nat :=
  (msgs.map (fun m => estTokS m.content)).sum

/-- `String.prototype.substring(0, n)`. -/
def jsSubstrTo (s : String) (n : Nat) : String :=
  ⟨s.data.take n⟩

/-- `Math.max(2000, MAX_SAFE_TOKENS - estimateTokenCount(userMessage) - 1000)`
(ragService.js 1191–1194); `Nat` subtraction clamps at 0 exactly where the
JavaScript value would go negative and be overridden by the `max`. -/
def safeTruncTarget (userMessage : String) : Nat :=
  max 2000 (15000 - estTokS userMessage - 1000)

/-- The oversize guard (ragService.js 1184–1203): truncate the system
prompt (only) when the total estimate exceeds 15000 **and** the system
prompt is longer than the target. -/
def applySafetyTruncation (systemPrompt : String) (history : List ChatMsg)
    (userMessage : String) : List ChatMsg :=
  if 15000 < totalTokenEstimate (buildMessages systemPrompt history userMessage) then
    if safeTruncTarget userMessage * 4 < systemPrompt.length then
      buildMessages
        (jsSubstrTo systemPrompt (safeTruncTarget userMessage * 4) ++ truncationNotice)
        history userMessage
    else buildMessages systemPrompt history userMessage
  else buildMessages systemPrompt history userMessage

/-- 15001 history messages of one estimated token each. -/
def c9LongHistory : List ChatMsg :=
  List.replicate 15001 ⟨"user", "aaaa"⟩

/-- A 48000-character user message (12000 estimated tokens). -/
def c9BigUser : String :=
  ⟨List.replicate 48000 'a'⟩

/-- An 8004-character system prompt (2001 estimated tokens). -/
def c9BigSys : String :=
  ⟨List.replicate 8004 'b'⟩

/-- 1000 history messages of one estimated token each. -/
def c9SmallHistory : List ChatMsg :=
  List.replicate 1000 ⟨"user", "aaaa"⟩

theorem estTokS_def (s : String) : estTokS s = (s.length + 3) / 4 := rfl

theorem c9BigUser_length : c9BigUser.length = 48000 := by
  show (List.replicate 48000 'a').length = 48000
  rw [List.length_replicate]

theorem estTokS_c9BigUser : estTokS c9BigUser = 12000 := by
  rw [estTokS_def, c9BigUser_length]

theorem c9BigSys_length : c9BigSys.length = 8004 := by
  show (List.replicate 8004 'b').length = 8004
  rw [List.length_replicate]

theorem estTokS_c9BigSys : estTokS c9BigSys = 2001 := by
  rw [estTokS_def, c9BigSys_length]

theorem totalTokenEstimate_build (sys : String) (hist : List ChatMsg)
    (user : String) :
    totalTokenEstimate (buildMessages sys hist user) =
      estTokS sys + ((hist.map fun m => estTokS m.content).sum + estTokS user) := by
  unfold totalTokenEstimate buildMessages
  simp only [List.map_cons, List.map_append, List.map_nil, List.sum_cons,
    List.sum_append, List.sum_nil]
  omega

theorem histTok_long :
    (c9LongHistory.map fun m => estTokS m.content).sum = 15001 := by
  unfold c9LongHistory
  rw [List.map_replicate, List.sum_replicate, smul_eq_mul]
  norm_num [show estTokS "aaaa" = 1 from rfl]

theorem histTok_small :
    (c9SmallHistory.map fun m => estTokS m.content).sum = 1000 := by
  unfold c9SmallHistory
  rw [List.map_replicate, List.sum_replicate, smul_eq_mul]
  norm_num [show estTokS "aaaa" = 1 from rfl]

theorem c9_total_long :
    totalTokenEstimate (buildMessages "s" c9LongHistory "hi") = 15003 := by
  rw [totalTokenEstimate_build, histTok_long, show estTokS "s" = 1 from rfl,
    show estTokS "hi" = 1 from rfl]

theorem c9_total_witness :
    totalTokenEstimate (buildMessages c9BigSys c9SmallHistory c9BigUser) = 15001 := by
  rw [totalTokenEstimate_build, histTok_small, estTokS_c9BigSys, estTokS_c9BigUser]

/-! ## Claim C9 — hard-ceiling truncation targets only the system prompt -/

/-- C9, counterexample: a prompt whose total estimate exceeds 15000 is
**not** necessarily truncated: with a one-character system prompt, a tiny
user message and an over-budget history (15001 one-token messages,
total 15003 > 15000) the computed target (13999 tokens = 55996 chars)
exceeds the system prompt's length, so nothing is truncated and no
notice is appended (the system prompt `"s"` equals none of its possible
truncations-with-notice). -/
theorem c9_counterexample :
    15000 < totalTokenEstimate (buildMessages "s" c9LongHistory "hi") ∧
      applySafetyTruncation "s" c9LongHistory "hi" =
        buildMessages "s" c9LongHistory "hi" ∧
      ("s" : String) ≠ "" ++ truncationNotice ∧
      ("s" : String) ≠ "s" ++ truncationNotice := by
  refine ⟨by rw [c9_total_long]; norm_num, ?_, by decide, by decide⟩
  unfold applySafetyTruncation
  rw [if_pos (by rw [c9_total_long]; norm_num), if_neg (by decide)]

/-- C9, amended: the result is always `[system', ...history, user]` with
the history and user message unchanged; the system prompt is replaced by
its `substring(0, target*4)` with the truncation notice appended exactly
when the total estimate exceeds 15000 **and** the system prompt is longer
than `target*4` characters, where
`target = max(2000, 15000 - estimate(user) - 1000)`; otherwise the
messages are returned unchanged (in particular a prompt can exceed the
15000-token ceiling without any truncation). -/
theorem c9_truncation_amended (sys : String) (hist : List ChatMsg) (user : String) :
    (∃ s', applySafetyTruncation sys hist user = buildMessages s' hist user) ∧
    (15000 < totalTokenEstimate (buildMessages sys hist user) →
      safeTruncTarget user * 4 < sys.length →
      applySafetyTruncation sys hist user =
        buildMessages (jsSubstrTo sys (safeTruncTarget user * 4) ++ truncationNotice)
          hist user) ∧
    (totalTokenEstimate (buildMessages sys hist user) ≤ 15000 →
      applySafetyTruncation sys hist user = buildMessages sys hist user) ∧
    (sys.length ≤ safeTruncTarget user * 4 →
      applySafetyTruncation sys hist user = buildMessages sys hist user) := by
  refine ⟨?_, ?_, ?_, ?_⟩
  · unfold applySafetyTruncation
    split_ifs
    · exact ⟨_, rfl⟩
    · exact ⟨_, rfl⟩
    · exact ⟨_, rfl⟩
  · intro h1 h2
    unfold applySafetyTruncation
    rw [if_pos h1, if_pos h2]
  · intro h
    unfold applySafetyTruncation
    rw [if_neg (by omega)]
  · intro h
    unfold applySafetyTruncation
    split_ifs with h1 h2
    · omega
    · rfl
    · rfl

/-- C9 witness: a concrete oversize prompt (total 15001 > 15000) whose
system prompt exceeds the 8000-character target is truncated with the
notice appended, history and user message unchanged. -/
theorem c9_witness :
    15000 < totalTokenEstimate (buildMessages c9BigSys c9SmallHistory c9BigUser) ∧
      safeTruncTarget c9BigUser * 4 < c9BigSys.length ∧
      applySafetyTruncation c9BigSys c9SmallHistory c9BigUser =
        buildMessages
          (jsSubstrTo c9BigSys (safeTruncTarget c9BigUser * 4) ++ truncationNotice)
          c9SmallHistory c9BigUser := by
  have h1 : 15000 < totalTokenEstimate
      (buildMessages c9BigSys c9SmallHistory c9BigUser) := by
    rw [c9_total_witness]; norm_num
  have hlen : c9BigSys.length = 8004 := c9BigSys_length
  have h2 : safeTruncTarget c9BigUser * 4 < c9BigSys.length := by
    rw [hlen, show safeTruncTarget c9BigUser =
      max 2000 (15000 - estTokS c9BigUser - 1000) from rfl, estTokS_c9BigUser]
    norm_num
  exact ⟨h1, h2,
    (c9_truncation_amended c9BigSys c9SmallHistory c9BigUser).2.1 h1 h2⟩

/-- C8 witness: both failure modes at concrete inputs. -/
theorem c8_witness :
    findSimilarChunks (.error "embedding down") (fun _ => .ok scenarioRows)
        7 (mkRat 1 20) 5 = [] ∧
      findSimilarChunks (.ok [1]) (fun _ => .error "db down")
        7 (mkRat 1 20) 5 = [] :=
  ⟨(c8_error_degrades 7 (mkRat 1 20) 5).1 "embedding down" _,
    (c8_error_degrades 7 (mkRat 1 20) 5).2 [1] "db down" _ rfl⟩

/-! ## Embedding cache (`embeddingCacheService.js`)

The cache is a JavaScript `Map` (iteration in insertion order;
`set` on an existing key updates in place, otherwise appends; `delete`
removes the key's entry), modelled as an association list.  Every
`Date.now()` reading is an explicit `now : Nat` argument; the clock has
millisecond resolution, so nothing prevents two consecutive operations
from observing the same instant — that possibility is part of the model
(time only never runs backwards).
`generateKey` normalizes the text (lowercase, trim, collapse internal
whitespace); the SHA-256 truncated to 16 hex characters is abstracted as
the identity on the normalized text (hash collisions of the truncated
digest are outside this model). -/

structure CacheEntry where
  embeddings : List ℚ
  timestamp : Nat
  lastAccessed : Nat
  textLength : Nat
deriving DecidableEq, Repr

structure EmbCache where
  entries : List (String × CacheEntry)
  maxSize : Nat
  ttl : Nat
deriving DecidableEq, Repr

/-- Collapse every maximal run of whitespace into one space
(`.replace(/\s+/g, ' ')`), tracking whether the previous character was
whitespace. -/
def collapseWsAux : Bool → List Char → List Char
  | _, [] => []
  | prevWs, c :: rest =>
    if isWsChar c then
      if prevWs then collapseWsAux true rest
      else ' ' :: collapseWsAux true rest
    else c :: collapseWsAux false rest

/-- `generateKey` (embeddingCacheService.js 27–33): lowercase
(character-wise, as `toLowerCase()` acts on the repository's ASCII keys),
trim, collapse whitespace; the truncated SHA-256 digest is abstracted as
the normalized text itself. -/
def generateKey (text : String) : String :=
  ⟨collapseWsAux false (jsTrim (text.data.map Char.toLower))⟩

/-- `Map.prototype.has`. -/
def mapHasKey (entries : List (String × CacheEntry)) (k : String) : Bool :=
  entries.any (fun p => p.1 == k)

/-- `Map.prototype.set`: update in place when the key exists, append
otherwise. -/
def mapSet (entries : List (String × CacheEntry)) (k : String) (v : CacheEntry) :
    List (String × CacheEntry) :=
  if mapHasKey entries k then
    entries.map (fun p => if p.1 == k then (k, v) else p)
  else entries ++ [(k, v)]

/-- The `evictOldest` scan (embeddingCacheService.js 90–98): fold over
the entries in iteration order keeping the first strictly-smaller
`lastAccessed` seen so far, starting from `(null, Date.now())`. -/
def findOldest : List (String × CacheEntry) → Option String × Nat → Option String × Nat
  | [], best => best
  | (k, e) :: rest, (bk, bt) =>
    if e.lastAccessed < bt then findOldest rest (some k, e.lastAccessed)
    else findOldest rest (bk, bt)

/-- `evictOldest` (embeddingCacheService.js 87–104) at the instant `now`
(= `Date.now()`): delete the entry the scan selected, if any.  When every
live entry was touched at `now` itself, the strict `<` scan selects
nothing and the method deletes nothing. -/
def evictOldest (c : EmbCache) (now : Nat) : EmbCache :=
  if c.entries.isEmpty then c
  else
    match (findOldest c.entries (none, now)).1 with
    | none => c
    | some k => { c with entries := c.entries.eraseP (fun p => p.1 == k) }

/-- `set(text, embeddings)` (embeddingCacheService.js 66–82) at the
instant `now`: evict when the size has reached `maxSize`, then insert the
entry timestamped `now`. -/
def cacheSet (c : EmbCache) (text : String) (emb : List ℚ) (now : Nat) : EmbCache :=
  let c1 := if c.maxSize ≤ c.entries.length then evictOldest c now else c
  { c1 with
    entries := mapSet c1.entries (generateKey text)
      ⟨emb, now, now, text.length⟩ }

/-- A cache with no entries (the constructor state). -/
def emptyCache (maxSize ttl : Nat) : EmbCache :=
  ⟨[], maxSize, ttl⟩

/-- Well-formedness of a cache state relative to the instant `now`:
keys are unique (it is a `Map`), every `lastAccessed` is strictly in the
past, and the `lastAccessed` values are pairwise distinct.  The last two
conditions hold when every earlier operation happened at an earlier
millisecond; they can fail under a same-millisecond burst, which is
exactly when the capacity bound breaks (see the C7 counterexample). -/
def CacheWF (c : EmbCache) (now : Nat) : Prop :=
  (c.entries.map Prod.fst).Nodup ∧
    (∀ p ∈ c.entries, p.2.lastAccessed < now) ∧
    (c.entries.map (fun p => p.2.lastAccessed)).Nodup

theorem CacheWF.mono {c : EmbCache} {t t' : Nat} (h : CacheWF c t)
    (htt : t ≤ t') : CacheWF c t' :=
  ⟨h.1, fun p hp => lt_of_lt_of_le (h.2.1 p hp) htt, h.2.2⟩

theorem findOldest_no_update :
    ∀ (l : List (String × CacheEntry)) (bk : Option String) (bt : Nat),
      (∀ p ∈ l, ¬ p.2.lastAccessed < bt) → findOldest l (bk, bt) = (bk, bt) := by
  intro l
  induction l with
  | nil => intro bk bt _; rfl
  | cons p rest ih =>
    intro bk bt h
    obtain ⟨k, e⟩ := p
    rw [findOldest, if_neg (h (k, e) (List.mem_cons_self _ _))]
    exact ih bk bt (fun q hq => h q (List.mem_cons_of_mem _ hq))

theorem findOldest_min :
    ∀ (l : List (String × CacheEntry)) (bk : Option String) (bt : Nat),
      (∃ p ∈ l, p.2.lastAccessed < bt) →
      ∃ k e, (k, e) ∈ l ∧ findOldest l (bk, bt) = (some k, e.lastAccessed) ∧
        e.lastAccessed < bt ∧ ∀ q ∈ l, e.lastAccessed ≤ q.2.lastAccessed := by
  intro l
  induction l with
  | nil => intro bk bt h; simp at h
  | cons p rest ih =>
    intro bk bt h
    obtain ⟨k0, e0⟩ := p
    by_cases h0 : e0.lastAccessed < bt
    · rw [findOldest, if_pos h0]
      by_cases hrest : ∃ q ∈ rest, q.2.lastAccessed < e0.lastAccessed
      · obtain ⟨k, e, hmem, heq, hlt, hmin⟩ := ih (some k0) e0.lastAccessed hrest
        refine ⟨k, e, List.mem_cons_of_mem _ hmem, heq, lt_trans hlt h0, ?_⟩
        intro q hq
        rcases List.mem_cons.mp hq with rfl | hq'
        · exact le_of_lt hlt
        · exact hmin q hq'
      · push_neg at hrest
        refine ⟨k0, e0, List.mem_cons_self _ _, ?_, h0, ?_⟩
        · exact findOldest_no_update rest (some k0) e0.lastAccessed
            (fun q hq => not_lt.mpr (hrest q hq))
        · intro q hq
          rcases List.mem_cons.mp hq with rfl | hq'
          · exact le_rfl
          · exact hrest q hq'
    · rw [findOldest, if_neg h0]
      have hrest : ∃ q ∈ rest, q.2.lastAccessed < bt := by
        obtain ⟨q, hq, hqlt⟩ := h
        rcases List.mem_cons.mp hq with rfl | hq'
        · exact absurd hqlt h0
        · exact ⟨q, hq', hqlt⟩
      obtain ⟨k, e, hmem, heq, hlt, hmin⟩ := ih bk bt hrest
      refine ⟨k, e, List.mem_cons_of_mem _ hmem, heq, hlt, ?_⟩
      intro q hq
      rcases List.mem_cons.mp hq with rfl | hq'
      · exact le_trans (le_of_lt hlt) (not_lt.mp h0)
      · exact hmin q hq'

/-- When every live entry's `lastAccessed` is strictly before `now`,
evicting from a nonempty cache removes exactly one entry: one whose
`lastAccessed` is least. -/
theorem evictOldest_spec (c : EmbCache) (now : Nat) (hne : c.entries ≠ [])
    (hlt : ∀ p ∈ c.entries, p.2.lastAccessed < now) :
    ∃ k e, (k, e) ∈ c.entries ∧
      (∀ q ∈ c.entries, e.lastAccessed ≤ q.2.lastAccessed) ∧
      (evictOldest c now).entries = c.entries.eraseP (fun p => p.1 == k) ∧
      (evictOldest c now).maxSize = c.maxSize ∧ (evictOldest c now).ttl = c.ttl := by
  have hex : ∃ p ∈ c.entries, p.2.lastAccessed < now := by
    obtain ⟨p, hp⟩ := List.exists_mem_of_ne_nil c.entries hne
    exact ⟨p, hp, hlt p hp⟩
  obtain ⟨k, e, hmem, heq, _, hmin⟩ := findOldest_min c.entries none now hex
  refine ⟨k, e, hmem, hmin, ?_, ?_, ?_⟩ <;>
    · unfold evictOldest
      rw [if_neg (by simpa [List.isEmpty_iff] using hne), heq]

theorem mapHasKey_false_iff (l : List (String × CacheEntry)) (k : String) :
    mapHasKey l k = false ↔ ∀ p ∈ l, p.1 ≠ k := by
  simp [mapHasKey]

theorem keys_replace (l : List (String × CacheEntry)) (k : String) (v : CacheEntry) :
    (l.map (fun p => if p.1 == k then (k, v) else p)).map Prod.fst =
      l.map Prod.fst := by
  rw [List.map_map]
  refine List.map_congr_left ?_
  intro p _
  by_cases h : p.1 = k
  · simp [h]
  · simp [h]

theorem replace_eq_of_not_has (l : List (String × CacheEntry)) (k : String)
    (v : CacheEntry) (h : ∀ p ∈ l, p.1 ≠ k) :
    l.map (fun p => if p.1 == k then (k, v) else p) = l := by
  induction l with
  | nil => rfl
  | cons p rest ih =>
    rw [List.map_cons, if_neg (by simpa using h p (List.mem_cons_self _ _)),
      ih (fun q hq => h q (List.mem_cons_of_mem _ hq))]

theorem replace_la_nodup (k : String) (v : CacheEntry) (clock : Nat)
    (hv : v.lastAccessed = clock) :
    ∀ (l : List (String × CacheEntry)),
      (l.map Prod.fst).Nodup →
      (∀ p ∈ l, p.2.lastAccessed < clock) →
      ((l.map fun p => p.2.lastAccessed)).Nodup →
      (((l.map (fun p => if p.1 == k then (k, v) else p)).map
        fun p => p.2.lastAccessed)).Nodup := by
  intro l
  induction l with
  | nil => intro _ _ _; simp
  | cons p rest ih =>
    intro hkeys hla hlaN
    rw [List.map_cons] at hkeys hlaN
    rw [List.nodup_cons] at hkeys hlaN
    rw [List.map_cons, List.map_cons]
    by_cases hk : p.1 = k
    · rw [if_pos (by simpa using hk)]
      have hrest : rest.map (fun p => if p.1 == k then (k, v) else p) = rest := by
        refine replace_eq_of_not_has rest k v ?_
        intro q hq hqk
        refine hkeys.1 ?_
        rw [hk, ← hqk]
        exact List.mem_map_of_mem Prod.fst hq
      rw [hrest, List.nodup_cons]
      refine ⟨?_, hlaN.2⟩
      intro hmem
      obtain ⟨q, hq, hqe⟩ := List.mem_map.mp hmem
      have h1 := hla q (List.mem_cons_of_mem _ hq)
      have h2 : q.2.lastAccessed = v.lastAccessed := hqe
      omega
    · rw [if_neg (by simpa using hk), List.nodup_cons]
      constructor
      · intro hmem
        obtain ⟨q, hq, hqe⟩ := List.mem_map.mp hmem
        obtain ⟨r, hr, hre⟩ := List.mem_map.mp hq
        by_cases hrk : r.1 = k
        · rw [if_pos (by simpa using hrk)] at hre
          have := hla p (List.mem_cons_self _ _)
          rw [← hre] at hqe
          simp only [hv] at hqe
          omega
        · rw [if_neg (by simpa using hrk)] at hre
          subst hre
          exact hlaN.1 (hqe ▸ List.mem_map_of_mem _ hr)
      · exact ih hkeys.2 (fun q hq => hla q (List.mem_cons_of_mem _ hq)) hlaN.2

theorem eq_of_same_key :
    ∀ (l : List (String × CacheEntry)), (l.map Prod.fst).Nodup →
      ∀ p q : String × CacheEntry, p ∈ l → q ∈ l → p.1 = q.1 → p = q := by
  intro l
  induction l with
  | nil => intro _ p q hp; cases hp
  | cons a rest ih =>
    intro hnd p q hp hq hpq
    rw [List.map_cons, List.nodup_cons] at hnd
    rcases List.mem_cons.mp hp with rfl | hp' <;>
      rcases List.mem_cons.mp hq with rfl | hq'
    · rfl
    · exact absurd (hpq ▸ List.mem_map_of_mem Prod.fst hq') hnd.1
    · exact absurd (hpq ▸ List.mem_map_of_mem Prod.fst hp') hnd.1
    · exact ih hnd.2 p q hp' hq' hpq

theorem eq_of_same_la :
    ∀ (l : List (String × CacheEntry)),
      ((l.map fun p => p.2.lastAccessed)).Nodup →
      ∀ p q : String × CacheEntry, p ∈ l → q ∈ l →
        p.2.lastAccessed = q.2.lastAccessed → p = q := by
  intro l
  induction l with
  | nil => intro _ p q hp; cases hp
  | cons a rest ih =>
    intro hnd p q hp hq hpq
    rw [List.map_cons, List.nodup_cons] at hnd
    rcases List.mem_cons.mp hp with rfl | hp' <;>
      rcases List.mem_cons.mp hq with rfl | hq'
    · rfl
    · exact absurd (hpq ▸ List.mem_map_of_mem (fun p => p.2.lastAccessed) hq') hnd.1
    · exact absurd (hpq ▸ List.mem_map_of_mem (fun p => p.2.lastAccessed) hp') hnd.1
    · exact ih hnd.2 p q hp' hq' hpq

theorem not_mem_eraseP_key (k0 : String) (e0 : CacheEntry) :
    ∀ (l : List (String × CacheEntry)), (l.map Prod.fst).Nodup →
      (k0, e0) ∈ l → (k0, e0) ∉ l.eraseP (fun p => p.1 == k0) := by
  intro l
  induction l with
  | nil => intro _ h; cases h
  | cons a rest ih =>
    intro hnd hmem
    rw [List.map_cons, List.nodup_cons] at hnd
    by_cases ha : a.1 = k0
    · rw [List.eraseP_cons_of_pos (by simpa using ha)]
      intro hbad
      exact hnd.1 (by
        have : (k0 : String) = a.1 := ha.symm
        exact this ▸ List.mem_map_of_mem Prod.fst hbad)
    · rw [List.eraseP_cons_of_neg (by simpa using ha)]
      have hmem' : (k0, e0) ∈ rest := by
        rcases List.mem_cons.mp hmem with heq | h'
        · exact absurd (congrArg Prod.fst heq.symm) ha
        · exact h'
      intro hbad
      rcases List.mem_cons.mp hbad with heq | h'
      · exact ha (congrArg Prod.fst heq.symm)
      · exact ih hnd.2 hmem' h'

/-- The complete `set` specification under the invariant: when the state
is well-formed at the operation's instant `now` (in particular, all live
entries were last touched at an earlier millisecond), well-formedness at
`now + 1` and the size bound are preserved (eviction makes room), and an
insertion of a fresh key into a full cache evicts exactly the unique
least-recently-accessed entry, keeping all others. -/
theorem cacheSet_spec (c : EmbCache) (text : String) (emb : List ℚ) (now : Nat)
    (hwf : CacheWF c now) (hms : 1 ≤ c.maxSize)
    (hsz : c.entries.length ≤ c.maxSize) :
    CacheWF (cacheSet c text emb now) (now + 1) ∧
      (cacheSet c text emb now).entries.length ≤ c.maxSize ∧
      (cacheSet c text emb now).maxSize = c.maxSize ∧
      (c.entries.length = c.maxSize →
        mapHasKey c.entries (generateKey text) = false →
        ∃ k e, (k, e) ∈ c.entries ∧
          (∀ q ∈ c.entries, q ≠ (k, e) → e.lastAccessed < q.2.lastAccessed) ∧
          (k, e) ∉ (cacheSet c text emb now).entries ∧
          (∀ q ∈ c.entries, q ≠ (k, e) → q ∈ (cacheSet c text emb now).entries) ∧
          (cacheSet c text emb now).entries.length = c.maxSize) := by
  obtain ⟨hkeys, hla, hlaN⟩ := hwf
  by_cases hfull : c.maxSize ≤ c.entries.length
  · -- the cache is full: eviction happens first
    have hlen : c.entries.length = c.maxSize := le_antisymm hsz hfull
    have hne : c.entries ≠ [] := by
      intro h
      rw [h] at hlen
      simp at hlen
      omega
    obtain ⟨k0, e0, hmem, hmin, hent, hmax', httl'⟩ :=
      evictOldest_spec c now hne hla
    have hsub : List.Sublist ((evictOldest c now).entries) c.entries := by
      rw [hent]; exact List.eraseP_sublist _
    have hkeys1 : ((evictOldest c now).entries.map Prod.fst).Nodup :=
      hkeys.sublist (hsub.map Prod.fst)
    have hla1 : ∀ p ∈ (evictOldest c now).entries, p.2.lastAccessed < now :=
      fun p hp => hla p (hsub.mem hp)
    have hlaN1 : (((evictOldest c now).entries.map fun p => p.2.lastAccessed)).Nodup :=
      hlaN.sublist (hsub.map _)
    have hlen1 : (evictOldest c now).entries.length = c.entries.length - 1 := by
      rw [hent]
      exact List.length_eraseP_of_mem hmem (by simp)
    have hset : cacheSet c text emb now =
        { evictOldest c now with
          entries := mapSet (evictOldest c now).entries (generateKey text)
            ⟨emb, now, now, text.length⟩ } := by
      unfold cacheSet
      rw [if_pos hfull]
    refine ⟨?_, ?_, ?_, ?_⟩
    · -- well-formedness of the result
      rw [hset]
      refine ⟨?_, ?_, ?_⟩
      · show ((mapSet (evictOldest c now).entries _ _).map Prod.fst).Nodup
        unfold mapSet
        split
        next hhas =>
          rw [keys_replace]
          exact hkeys1
        next hhas =>
          rw [List.map_append]
          refine List.Nodup.append hkeys1 (by simp) ?_
          intro a ha hb
          simp only [List.map_cons, List.map_nil, List.mem_singleton] at hb
          obtain ⟨p, hp, hpe⟩ := List.mem_map.mp ha
          exact ((mapHasKey_false_iff _ _).mp (Bool.eq_false_iff.mpr hhas) p hp)
            (by rw [hpe, hb])
      · show ∀ p ∈ mapSet (evictOldest c now).entries _ _, p.2.lastAccessed < now + 1
        intro p hp
        unfold mapSet at hp
        split at hp
        next hhas =>
          obtain ⟨q, hq, hqe⟩ := List.mem_map.mp hp
          split at hqe
          · rw [← hqe]
            show now < now + 1
            omega
          · rw [← hqe]
            exact lt_trans (hla1 q hq) (by omega)
        next hhas =>
          rcases List.mem_append.mp hp with h' | h'
          · exact lt_trans (hla1 p h') (by omega)
          · simp only [List.mem_singleton] at h'
            rw [h']
            show now < now + 1
            omega
      · show (((mapSet (evictOldest c now).entries _ _).map
          fun p => p.2.lastAccessed)).Nodup
        unfold mapSet
        split
        next hhas =>
          exact replace_la_nodup _ _ now rfl _ hkeys1 hla1 hlaN1
        next hhas =>
          rw [List.map_append]
          refine List.Nodup.append hlaN1 (by simp) ?_
          intro a ha hb
          simp only [List.map_cons, List.map_nil, List.mem_singleton] at hb
          obtain ⟨p, hp, hpe⟩ := List.mem_map.mp ha
          have := hla1 p hp
          omega
    · -- size bound
      rw [hset]
      show (mapSet (evictOldest c now).entries _ _).length ≤ c.maxSize
      unfold mapSet
      split
      · rw [List.length_map]
        omega
      · rw [List.length_append]
        simp only [List.length_cons, List.length_nil]
        omega
    · rw [hset]
      exact hmax'
    · -- the eviction is exactly the unique LRU entry
      intro _ hfresh
      have hfresh1 : mapHasKey (evictOldest c now).entries (generateKey text) = false := by
        rw [mapHasKey_false_iff] at hfresh ⊢
        exact fun p hp => hfresh p (hsub.mem hp)
      have happ : mapSet (evictOldest c now).entries (generateKey text)
          ⟨emb, now, now, text.length⟩ =
          (evictOldest c now).entries ++
            [(generateKey text, ⟨emb, now, now, text.length⟩)] := by
        unfold mapSet
        rw [if_neg (by simp [hfresh1])]
      refine ⟨k0, e0, hmem, ?_, ?_, ?_, ?_⟩
      · intro q hq hne'
        refine lt_of_le_of_ne (hmin q hq) ?_
        intro heq'
        exact hne' (eq_of_same_la c.entries hlaN q (k0, e0) hq hmem heq'.symm)
      · rw [hset]
        show (k0, e0) ∉ mapSet (evictOldest c now).entries _ _
        rw [happ]
        intro hbad
        rcases List.mem_append.mp hbad with h' | h'
        · rw [hent] at h'
          exact not_mem_eraseP_key k0 e0 c.entries hkeys hmem h'
        · simp only [List.mem_singleton, Prod.mk.injEq] at h'
          have := hla (k0, e0) hmem
          rw [h'.2] at this
          simp at this
      · intro q hq hne'
        rw [hset]
        show q ∈ mapSet (evictOldest c now).entries _ _
        rw [happ]
        refine List.mem_append.mpr (Or.inl ?_)
        rw [hent]
        refine (List.mem_eraseP_of_neg ?_).mpr hq
        simp only [beq_iff_eq]
        intro hqk
        exact hne' (eq_of_same_key c.entries hkeys q (k0, e0) hq hmem hqk)
      · rw [hset]
        show (mapSet (evictOldest c now).entries _ _).length = c.maxSize
        rw [happ, List.length_append]
        simp only [List.length_cons, List.length_nil]
        omega
  · -- the cache is not full: no eviction
    push_neg at hfull
    have hset : cacheSet c text emb now =
        { c with
          entries := mapSet c.entries (generateKey text)
            ⟨emb, now, now, text.length⟩ } := by
      unfold cacheSet
      rw [if_neg (by omega)]
    refine ⟨?_, ?_, ?_, ?_⟩
    · rw [hset]
      refine ⟨?_, ?_, ?_⟩
      · show ((mapSet c.entries _ _).map Prod.fst).Nodup
        unfold mapSet
        split
        next hhas =>
          rw [keys_replace]
          exact hkeys
        next hhas =>
          rw [List.map_append]
          refine List.Nodup.append hkeys (by simp) ?_
          intro a ha hb
          simp only [List.map_cons, List.map_nil, List.mem_singleton] at hb
          obtain ⟨p, hp, hpe⟩ := List.mem_map.mp ha
          exact ((mapHasKey_false_iff _ _).mp (Bool.eq_false_iff.mpr hhas) p hp)
            (by rw [hpe, hb])
      · show ∀ p ∈ mapSet c.entries _ _, p.2.lastAccessed < now + 1
        intro p hp
        unfold mapSet at hp
        split at hp
        next hhas =>
          obtain ⟨q, hq, hqe⟩ := List.mem_map.mp hp
          split at hqe
          · rw [← hqe]
            show now < now + 1
            omega
          · rw [← hqe]
            exact lt_trans (hla q hq) (by omega)
        next hhas =>
          rcases List.mem_append.mp hp with h' | h'
          · exact lt_trans (hla p h') (by omega)
          · simp only [List.mem_singleton] at h'
            rw [h']
            show now < now + 1
            omega
      · show (((mapSet c.entries _ _).map fun p => p.2.lastAccessed)).Nodup
        unfold mapSet
        split
        next hhas =>
          exact replace_la_nodup _ _ now rfl _ hkeys hla hlaN
        next hhas =>
          rw [List.map_append]
          refine List.Nodup.append hlaN (by simp) ?_
          intro a ha hb
          simp only [List.map_cons, List.map_nil, List.mem_singleton] at hb
          obtain ⟨p, hp, hpe⟩ := List.mem_map.mp ha
          have := hla p hp
          omega
    · rw [hset]
      show (mapSet c.entries _ _).length ≤ c.maxSize
      unfold mapSet
      split
      · rw [List.length_map]
        omega
      · rw [List.length_append]
        simp only [List.length_cons, List.length_nil]
        omega
    · rw [hset]
    · intro hlen _
      omega

def validTimes : Nat → List (String × List ℚ × Nat) → Bool
  | _, [] => true
  | t, op :: rest => decide (t ≤ op.2.2) && validTimes (op.2.2 + 1) rest

theorem foldl_cacheSet_inv :
    ∀ (ops : List (String × List ℚ × Nat)) (c : EmbCache) (t : Nat),
      CacheWF c t → 1 ≤ c.maxSize → c.entries.length ≤ c.maxSize →
      validTimes t ops = true →
      (ops.foldl (fun st p => cacheSet st p.1 p.2.1 p.2.2) c).maxSize =
          c.maxSize ∧
        (ops.foldl (fun st p => cacheSet st p.1 p.2.1 p.2.2) c).entries.length ≤
          c.maxSize := by
  intro ops
  induction ops with
  | nil => intro c t _ _ hsz _; exact ⟨rfl, hsz⟩
  | cons op rest ih =>
    intro c t hwf hms hsz hvt
    simp only [validTimes, Bool.and_eq_true, decide_eq_true_eq] at hvt
    obtain ⟨hwf', hsz', hmax', _⟩ :=
      cacheSet_spec c op.1 op.2.1 op.2.2 (hwf.mono hvt.1) hms hsz
    rw [List.foldl_cons]
    have := ih (cacheSet c op.1 op.2.1 op.2.2) (op.2.2 + 1)
      hwf' (by omega) (by omega) hvt.2
    exact ⟨by rw [this.1, hmax'], by omega⟩

/-! ## Claim C7 — cache capacity bound and LRU eviction -/

/-- C7, counterexample: the size bound is **not** unconditional.
`Date.now()` has millisecond resolution, so two `set` calls in the same
millisecond observe the same instant.  With `maxSize = 1`, inserting
`"a"` and then `"b"` both at instant 5 makes `evictOldest` scan with
`oldestTime = 5` and strict `<` — the live entry (`lastAccessed = 5`) is
not selected, nothing is evicted, and after `maxSize + 1 = 2` distinct
insertions the size is 2 > `maxSize`. -/
theorem c7_counterexample :
    (cacheSet (cacheSet (emptyCache 1 3600000) "a" [] 5) "b" [] 5).entries.length
        = 2 ∧
      ¬ (cacheSet (cacheSet (emptyCache 1 3600000) "a" [] 5)
          "b" [] 5).entries.length ≤ (emptyCache 1 3600000).maxSize := by
  decide

/-- C7, amended: provided consecutive operations happen at distinct
instants — every live entry's `lastAccessed` is strictly before the
`Date.now()` of the current call, and `lastAccessed` values are pairwise
distinct — (i) `set` preserves this well-formedness and the size bound
`size ≤ maxSize`, so over any sequence of insertions at (weakly)
increasing, pairwise distinct instants starting from the empty cache —
in particular `maxSize + 1` distinct entries — the size never exceeds
`maxSize`; and (ii) a fresh key inserted into a full cache evicts exactly
the entry with the strictly smallest `lastAccessed` (the unique
least-recently-accessed live entry): it is gone from the result, every
other entry survives, and the size is back at `maxSize`.  When several
operations share a millisecond the bound can fail, as the counterexample
shows. -/
theorem c7_cache_lru :
    (∀ (c : EmbCache) (text : String) (emb : List ℚ) (now : Nat),
      CacheWF c now → 1 ≤ c.maxSize → c.entries.length ≤ c.maxSize →
      CacheWF (cacheSet c text emb now) (now + 1) ∧
        (cacheSet c text emb now).entries.length ≤ c.maxSize ∧
        (cacheSet c text emb now).maxSize = c.maxSize ∧
        (c.entries.length = c.maxSize →
          mapHasKey c.entries (generateKey text) = false →
          ∃ k e, (k, e) ∈ c.entries ∧
            (∀ q ∈ c.entries, q ≠ (k, e) → e.lastAccessed < q.2.lastAccessed) ∧
            (k, e) ∉ (cacheSet c text emb now).entries ∧
            (∀ q ∈ c.entries, q ≠ (k, e) → q ∈ (cacheSet c text emb now).entries) ∧
            (cacheSet c text emb now).entries.length = c.maxSize)) ∧
    (∀ (ops : List (String × List ℚ × Nat)) (ms ttl : Nat), 1 ≤ ms →
      validTimes 0 ops = true →
      (ops.foldl (fun st p => cacheSet st p.1 p.2.1 p.2.2)
        (emptyCache ms ttl)).entries.length ≤ ms) := by
  constructor
  · exact cacheSet_spec
  · intro ops ms ttl hms hvt
    exact (foldl_cacheSet_inv ops (emptyCache ms ttl) 0
      ⟨by simp [emptyCache], by simp [emptyCache], by simp [emptyCache]⟩
      hms (by simp [emptyCache]) hvt).2

/-- A concrete full cache of capacity 2: `"a"` was last accessed at
instant 0, `"b"` at instant 1. -/
def c7cache : EmbCache :=
  ⟨[("a", ⟨[], 0, 0, 1⟩), ("b", ⟨[], 1, 1, 1⟩)], 2, 3600000⟩

/-- C7 witness: inserting a third distinct entry at the later instant 2
into the full two-entry cache keeps the invariant and the size bound,
and a fold of three distinct insertions at distinct instants into an
empty capacity-2 cache ends at size at most 2. -/
theorem c7_witness :
    CacheWF (cacheSet c7cache "c" [] 2) 3 ∧
      (cacheSet c7cache "c" [] 2).entries.length ≤ 2 ∧
      (([("a", [], 0), ("b", [], 1), ("c", [], 2)] :
          List (String × List ℚ × Nat)).foldl
        (fun st p => cacheSet st p.1 p.2.1 p.2.2)
        (emptyCache 2 3600000)).entries.length ≤ 2 := by
  have h := c7_cache_lru.1 c7cache "c" [] 2
    ⟨by decide, by decide, by decide⟩ (by decide) (by decide)
  exact ⟨h.1, h.2.1, c7_cache_lru.2 [("a", [], 0), ("b", [], 1), ("c", [], 2)]
    2 3600000 (by norm_num) (by decide)⟩

end Rag
